import Mathlib

set_option maxRecDepth 4000

/-!
Verification of the Blackjack game engine (`blackjack.py`): cards, deck,
hand scoring, the round state machine with betting, and bet-input parsing,
shallowly embedded as executable Lean definitions.
-/

/-- The four suits of `Deck.__init__`'s `suits` list. -/
inductive Suit
  | hearts | diamonds | clubs | spades
deriving DecidableEq, Repr, Fintype

/-- The thirteen ranks of `Deck.__init__`'s `ranks` list. -/
inductive Rank
  | r2 | r3 | r4 | r5 | r6 | r7 | r8 | r9 | r10 | jack | queen | king | ace
deriving DecidableEq, Repr, Fintype

/-- `Card`: a suit/rank pair, immutable. -/
structure Card where
  suit : Suit
  rank : Rank
deriving DecidableEq, Repr, Fintype

/-- `Card.value`: Jack/Queen/King are 10, Ace is 11, numeric ranks their face value. -/
def Card.value (c : Card) : Nat :=
  match c.rank with
  | .jack => 10
  | .queen => 10
  | .king => 10
  | .ace => 11
  | .r2 => 2
  | .r3 => 3
  | .r4 => 4
  | .r5 => 5
  | .r6 => 6
  | .r7 => 7
  | .r8 => 8
  | .r9 => 9
  | .r10 => 10

/-- The suit iteration order of `Deck.__init__`. -/
def allSuits : List Suit := [.hearts, .diamonds, .clubs, .spades]

/-- The rank iteration order of `Deck.__init__`. -/
def allRanks : List Rank :=
  [.r2, .r3, .r4, .r5, .r6, .r7, .r8, .r9, .r10, .jack, .queen, .king, .ace]

/-- `Deck.__init__`: the 52 cards appended suit-major, rank-minor. -/
def Deck.new : List Card :=
  allSuits.flatMap (fun s => allRanks.map (fun r => Card.mk s r))

/-- `Deck.deal`: if the card list is empty it is first replaced by a freshly
constructed, shuffled deck (`self.__init__(); self.shuffle()`); then the last
card is popped.  The shuffle is modelled by the parameter `sh`, an arbitrary
reordering function supplied by the environment. -/
def Deck.deal (sh : List Card → List Card) (cards : List Card) :
    Option (Card × List Card) :=
  let cs := if cards.isEmpty then sh Deck.new else cards
  match cs.getLast? with
  | none => none
  | some c => some (c, cs.dropLast)

/-- The body of the `for card in self.cards` loop of `Hand.get_value`:
accumulates the running value and the number of Aces seen. -/
def countStep (acc : Nat × Nat) (c : Card) : Nat × Nat :=
  (acc.1 + c.value, if c.rank = Rank.ace then acc.2 + 1 else acc.2)

/-- The `while value > 21 and aces > 0` loop of `Hand.get_value`:
subtract 10 per demoted Ace while the total exceeds 21. -/
def adjustAces : Nat → Nat → Nat
  | v, 0 => v
  | v, a + 1 => if 21 < v then adjustAces (v - 10) a else v

/-- `Hand.get_value`: sum card values counting Aces as 11, then demote Aces
while over 21.  A hand is its ordered list of cards. -/
def Hand.get_value (cards : List Card) : Nat :=
  let p := cards.foldl countStep (0, 0)
  adjustAces p.1 p.2

/-- Follows the spec's words for claim C1: "sum all base values (Aces counted
as 11), then while the running total exceeds 21 and at least one Ace has not
yet been demoted, subtract 10 per demoted Ace". -/
def specHandValue (cards : List Card) : Nat :=
  adjustAces ((cards.map Card.value).sum) (cards.countP (fun c => c.rank == Rank.ace))

/-- The possible outcomes of one round of `BlackjackGame.play`. -/
inductive Outcome
  | push | playerBlackjack | dealerBlackjack | playerBust
  | dealerBust | playerWin | dealerWin
deriving DecidableEq, Repr

/-- The observable result of a settled round: the two final hands, the
natural-blackjack flags computed on the initial two-card deals, the outcome,
and the balance after settlement. -/
structure RoundResult where
  playerHand : List Card
  dealerHand : List Card
  playerBJ : Bool
  dealerBJ : Bool
  outcome : Outcome
  balance : Int
deriving DecidableEq, Repr

/-- The player decision loop of `BlackjackGame.play` (`true` = hit,
`false` = stand; invalid console tokens are re-prompted at the I/O layer and
never reach the loop body).  A hit deals a card; going over 21 ends the round
as a bust, reaching exactly 21 ends the player's turn.  Returns the final
player hand, the remaining deck, and whether the player busted; `none` when
the decision list is exhausted before the turn ends or a deal fails. -/
def playerTurn (sh : List Card → List Card) :
    List Bool → List Card → List Card → Option (List Card × List Card × Bool)
  | [], _, _ => none
  | false :: _, deck, hand => some (hand, deck, false)
  | true :: rest, deck, hand =>
    match Deck.deal sh deck with
    | none => none
    | some (c, deck') =>
      let hand' := hand ++ [c]
      if 21 < Hand.get_value hand' then some (hand', deck', true)
      else if Hand.get_value hand' = 21 then some (hand', deck', false)
      else playerTurn sh rest deck' hand'

/-- The dealer loop of `BlackjackGame.play`: `while dealer_hand.get_value() < 17`
deal one card to the dealer.  Fuel-indexed; `none` means the fuel ran out
before the loop exited (or a deal failed). -/
def dealerTurn (sh : List Card → List Card) :
    Nat → List Card → List Card → Option (List Card × List Card)
  | 0, _, _ => none
  | fuel + 1, deck, hand =>
    if Hand.get_value hand < 17 then
      match Deck.deal sh deck with
      | none => none
      | some (c, deck') => dealerTurn sh fuel deck' (hand ++ [c])
    else some (hand, deck)

/-- The winner-determination block of `BlackjackGame.play` (the final
`if dealer_value > 21 / elif / elif / else` chain) with its balance update. -/
def settle (pv dv : Nat) (bet balance : Int) : Outcome × Int :=
  if 21 < dv then (.dealerBust, balance + bet)
  else if dv < pv then (.playerWin, balance + bet)
  else if pv < dv then (.dealerWin, balance - bet)
  else (.push, balance)

/-- Python's `round` applied to the exact value `n / 2`: exact when `n` is
even, and ties (odd `n`) go to the even neighbour.  Only even integers are
ever divided, so the result is exact integer arithmetic. -/
def pyRoundHalf (n : Int) : Int :=
  if n % 2 = 0 then n / 2
  else if ((n - 1) / 2) % 2 = 0 then (n - 1) / 2 else (n + 1) / 2

/-- `round(self.bet * 1.5)` of the player-blackjack branch: `bet * 1.5` is the
exact value `3 * bet / 2` (exact in double precision for every realistic bet),
rounded by Python's nearest/half-to-even `round`. -/
def blackjackWinnings (bet : Int) : Int := pyRoundHalf (3 * bet)

/-- The part of `BlackjackGame.play` after the four initial cards have been
dealt: the natural-blackjack checks and early exits, the player turn, the
dealer turn and the winner determination, each updating the balance exactly
as the source does. -/
def roundCore (sh : List Card → List Card) (choices : List Bool)
    (bet balance : Int) (fuel : Nat) (phand dhand deck4 : List Card) :
    Option RoundResult :=
  let pbj : Bool := Hand.get_value phand == 21
  let dbj : Bool := Hand.get_value dhand == 21
  if pbj && dbj then
    some ⟨phand, dhand, pbj, dbj, .push, balance⟩
  else if pbj then
    some ⟨phand, dhand, pbj, dbj, .playerBlackjack, balance + blackjackWinnings bet⟩
  else if dbj then
    some ⟨phand, dhand, pbj, dbj, .dealerBlackjack, balance - bet⟩
  else
    (playerTurn sh choices deck4 phand).bind fun tr =>
      if tr.2.2 then
        some ⟨tr.1, dhand, pbj, dbj, .playerBust, balance - bet⟩
      else
        (dealerTurn sh fuel tr.2.1 dhand).bind fun dr =>
          let s := settle (Hand.get_value tr.1) (Hand.get_value dr.1) bet balance
          some ⟨tr.1, dr.1, pbj, dbj, s.1, s.2⟩

/-- One round of `BlackjackGame.play` after the bet has been accepted and the
deck shuffled: `deck` is the shuffled card list (dealt from its end), `sh`
re-shuffles on deck exhaustion, `choices` are the player's hit/stand decisions,
`fuel` bounds the dealer loop.  The four initial deals run player, dealer,
player, dealer, then `roundCore` finishes the round. -/
def playRound (sh : List Card → List Card) (deck : List Card)
    (choices : List Bool) (bet balance : Int) (fuel : Nat) : Option RoundResult :=
  (Deck.deal sh deck).bind fun pr1 =>
  (Deck.deal sh pr1.2).bind fun pr2 =>
  (Deck.deal sh pr2.2).bind fun pr3 =>
  (Deck.deal sh pr3.2).bind fun pr4 =>
  roundCore sh choices bet balance fuel [pr1.1, pr3.1] [pr2.1, pr4.1] pr4.2

/-- One step of binary logarithm extraction: `p` is (remaining value,
exponent so far); divide out `2 ^ k` when it fits.  `pk` is `2 ^ k`, passed
precomputed so every literal exponent stays small. -/
def log2step (k pk : Nat) (p : Nat × Nat) : Nat × Nat :=
  if pk ≤ p.1 then (p.1 / pk, p.2 + k) else p

/-- `⌊log2 n⌋` for `1 ≤ n < 2 ^ 8192` (and 0 for `n = 0`), by binary
decomposition of the exponent. -/
def natLog2 (n : Nat) : Nat :=
  (log2step 1 2 (log2step 2 4 (log2step 4 16 (log2step 8 256
    (log2step 16 (2 ^ 16) (log2step 32 (2 ^ 32) (log2step 64 (2 ^ 64)
      (log2step 128 (2 ^ 128) (log2step 256 (2 ^ 256) (log2step 512 ((2 ^ 64) ^ 8)
        (log2step 1024 ((2 ^ 64) ^ 16) (log2step 2048 ((2 ^ 64) ^ 32)
          (log2step 4096 ((2 ^ 64) ^ 64) (n, 0)))))))))))))).2

/-- Round `a / b` to the nearest natural number, ties to even — the rounding
of IEEE-754 binary64 arithmetic (`b > 0`). -/
def roundHalfEvenDiv (a b : Nat) : Nat :=
  let q := a / b
  let r := a % b
  if 2 * r < b then q
  else if b < 2 * r then q + 1
  else if q % 2 = 0 then q else q + 1

/-- The binary64 value nearest to the positive decimal `a / 10 ^ d`, as a
dyadic pair `(M, s)` of value `M / 2 ^ s`: the exponent `e = ⌊log2 (a/10^d)⌋`
is found through a 2048-bit fixed-point shift `(2 ^ 64) ^ 32`, then the
53-bit mantissa `M ∈ [2^52, 2^53]` is rounded to nearest, ties to even. -/
def pyFloatPos (a d : Nat) : Nat × Int :=
  let e : Int := (natLog2 (a * (2 ^ 64) ^ 32 / 10 ^ d) : Int) - 2048
  let s : Int := 52 - e
  if 0 ≤ s then (roundHalfEvenDiv (a * 2 ^ s.toNat) (10 ^ d), s)
  else (roundHalfEvenDiv a (10 ^ d * 2 ^ (-s).toNat), s)

/-- `float(bet_input)` on the decimal literal of exact value `m / 10 ^ d`:
the nearest binary64 value (ties to even), as a signed dyadic pair `(M, s)`
of value `M / 2 ^ s`.  Faithful over the full finite binary64 range;
literals parsing to infinity (which make the uncaught `OverflowError` in
`int(...)`) are outside the model, as is the reduced precision of
subnormals — irrelevant here since any subnormal truncates to 0 anyway. -/
def pyFloat (m : Int) (d : Nat) : Int × Int :=
  if m = 0 then (0, 0)
  else if m < 0 then
    let p := pyFloatPos (-m).toNat d
    (-(p.1 : Int), p.2)
  else
    let p := pyFloatPos m.toNat d
    ((p.1 : Int), p.2)

/-- Python's `int(...)` applied to the double `M / 2 ^ s`: truncation toward
zero, computed by natural division on the magnitude. -/
def dyadicTrunc (p : Int × Int) : Int :=
  if p.2 ≤ 0 then p.1 * 2 ^ (-p.2).toNat
  else if 0 ≤ p.1 then (p.1.toNat / 2 ^ p.2.toNat : Nat)
  else -((-p.1).toNat / 2 ^ p.2.toNat : Nat)

/-- The exact rational value of the dyadic pair `(M, s)`, i.e. `M / 2 ^ s`. -/
def dyadicVal (p : Int × Int) : Rat :=
  if 0 ≤ p.2 then (p.1 : Rat) / 2 ^ p.2.toNat else (p.1 : Rat) * 2 ^ (-p.2).toNat

/-- The exact rational value of the decimal literal `m · 10 ^ -d`. -/
def litVal (m : Int) (d : Nat) : Rat := (m : Rat) / 10 ^ d

/-- One console answer to the bet prompt: empty, non-numeric (``float``
raises ``ValueError``), or a decimal literal of exact value `m / 10 ^ d`
(Python parses such a literal to the nearest binary64 float). -/
inductive BetInput
  | empty
  | nonNumeric
  | numeric (m : Int) (d : Nat)

/-- The validation tail of the bet loop: `if self.bet <= 0: continue`,
`elif self.bet > self.balance: continue`, `else: break`.  `none` means the
loop re-prompts without placing a bet. -/
def validateBet (balance bet : Int) : Option Int :=
  if bet ≤ 0 then none
  else if balance < bet then none
  else some bet

/-- One iteration of the bet-placement loop of `BlackjackGame.play`: empty
input selects the default 100, numeric input is parsed to the nearest
binary64 float by `float(...)` and truncated by `int(...)`, non-numeric
input re-prompts; the selected amount then runs through the positivity and
balance checks. -/
def parseBet (balance : Int) (i : BetInput) : Option Int :=
  match i with
  | .empty => validateBet balance 100
  | .nonNumeric => none
  | .numeric m d => validateBet balance (dyadicTrunc (pyFloat m d))

/-- The accumulator of `Hand.get_value`'s for-loop equals the nominal sum
paired with the Ace count. -/
lemma foldl_countStep (cards : List Card) (v a : Nat) :
    cards.foldl countStep (v, a) =
      (v + (cards.map Card.value).sum,
       a + cards.countP (fun c => c.rank == Rank.ace)) := by
  induction cards generalizing v a with
  | nil => simp
  | cons c cs ih =>
    by_cases h : c.rank = Rank.ace <;>
      simp [countStep, h, ih, List.countP_cons] <;> omega

/-- Claim C1: `Hand.get_value` sums the base values of the cards (Aces as 11)
and then repeatedly subtracts 10 while the total exceeds 21 and an Ace remains
undemoted; `[Ace, Ace, 9]` scores 21, `[Ace, Ace, Ace, 8]` scores 21, and
`[King, Queen]` scores 20. -/
theorem claim_C1 :
    (∀ cards, Hand.get_value cards = specHandValue cards)
    ∧ Hand.get_value [⟨.hearts, .ace⟩, ⟨.spades, .ace⟩, ⟨.hearts, .r9⟩] = 21
    ∧ Hand.get_value
        [⟨.hearts, .ace⟩, ⟨.spades, .ace⟩, ⟨.clubs, .ace⟩, ⟨.hearts, .r8⟩] = 21
    ∧ Hand.get_value [⟨.hearts, .king⟩, ⟨.hearts, .queen⟩] = 20 := by
  refine ⟨fun cards => ?_, by decide, by decide, by decide⟩
  show adjustAces (cards.foldl countStep (0, 0)).1 (cards.foldl countStep (0, 0)).2
      = specHandValue cards
  rw [foldl_countStep, specHandValue]
  simp

/-- Claim C7: `Card.value` depends only on the rank, and follows the table:
2–10 their face value, Jack/Queen/King 10, Ace 11. -/
theorem claim_C7 :
    ∀ (s t : Suit),
      (∀ r : Rank, (Card.mk s r).value = (Card.mk t r).value)
      ∧ (Card.mk s .r2).value = 2 ∧ (Card.mk s .r3).value = 3
      ∧ (Card.mk s .r4).value = 4 ∧ (Card.mk s .r5).value = 5
      ∧ (Card.mk s .r6).value = 6 ∧ (Card.mk s .r7).value = 7
      ∧ (Card.mk s .r8).value = 8 ∧ (Card.mk s .r9).value = 9
      ∧ (Card.mk s .r10).value = 10 ∧ (Card.mk s .jack).value = 10
      ∧ (Card.mk s .queen).value = 10 ∧ (Card.mk s .king).value = 10
      ∧ (Card.mk s .ace).value = 11 := by
  intro s t
  exact ⟨fun r => rfl, rfl, rfl, rfl, rfl, rfl, rfl, rfl, rfl, rfl, rfl, rfl,
    rfl, rfl⟩

/-- Claim C8: a fresh deck has exactly 52 cards, contains every suit/rank pair
with no duplicates, and its canonical order is suit-major, rank-minor: the
card at position `13 * si + ri` is the `ri`-th rank of the `si`-th suit. -/
theorem claim_C8 :
    Deck.new.length = 52 ∧ Deck.new.Nodup ∧ (∀ c : Card, c ∈ Deck.new)
    ∧ ∀ (si : Fin 4) (ri : Fin 13),
        Deck.new[13 * si.val + ri.val]? =
          (allSuits[si.val]?).bind
            (fun s => (allRanks[ri.val]?).map (fun r => Card.mk s r)) := by
  refine ⟨by decide, by decide, by decide, by decide⟩

/-- Claim C5: `Deck.deal` never fails.  On a non-empty deck it pops and
returns the last card, shrinking the deck by one; on an empty deck it deals
from a freshly shuffled 52-card set.  `sh` is the shuffle, assumed to permute
the fresh deck. -/
theorem claim_C5 (sh : List Card → List Card) (cards : List Card)
    (hsh : (sh Deck.new).Perm Deck.new) :
    (Deck.deal sh cards).isSome = true
    ∧ (∀ c rest, cards = rest ++ [c] → Deck.deal sh cards = some (c, rest))
    ∧ (∀ c rest, Deck.deal sh cards = some (c, rest) → cards ≠ [] →
        rest.length + 1 = cards.length)
    ∧ (cards = [] → ∃ c rest, Deck.deal sh cards = some (c, rest)
        ∧ rest ++ [c] = sh Deck.new ∧ rest.length + 1 = 52) := by
  have hlen : (sh Deck.new).length = 52 := by
    rw [hsh.length_eq]; decide
  rcases eq_or_ne cards [] with hnil | hne
  · subst hnil
    have hne2 : sh Deck.new ≠ [] := by
      intro h0; rw [h0] at hlen; simp at hlen
    have hlast : (sh Deck.new).getLast? = some ((sh Deck.new).getLast hne2) :=
      List.getLast?_eq_getLast _ hne2
    have hdeal : Deck.deal sh [] =
        some ((sh Deck.new).getLast hne2, (sh Deck.new).dropLast) := by
      simp [Deck.deal, hlast]
    refine ⟨by simp [hdeal], ?_, ?_, ?_⟩
    · intro c rest h; simp at h
    · intro c rest _ h; exact absurd rfl h
    · intro _
      refine ⟨_, _, hdeal, List.dropLast_append_getLast hne2, ?_⟩
      rw [← hlen]
      have := List.length_dropLast (sh Deck.new)
      omega
  · have hlast : cards.getLast? = some (cards.getLast hne) :=
      List.getLast?_eq_getLast _ hne
    have hemp : cards.isEmpty = false := by
      cases cards with
      | nil => exact absurd rfl hne
      | cons a l => rfl
    have hdeal : Deck.deal sh cards = some (cards.getLast hne, cards.dropLast) := by
      simp [Deck.deal, hemp, hlast]
    refine ⟨by simp [hdeal], ?_, ?_, fun h => absurd h hne⟩
    · intro c rest h
      subst h
      rw [hdeal]
      simp [List.getLast_append]
    · intro c rest h _
      rw [hdeal] at h
      have h2 : cards.dropLast = rest := congrArg Prod.snd (Option.some.inj h)
      have h4 := List.length_dropLast cards
      have hpos : 0 < cards.length := List.length_pos.mpr hne
      rw [← h2]
      omega

/-- Witness for C5 at the empty deck with the identity shuffle. -/
theorem claim_C5_witness : (Deck.deal id ([] : List Card)).isSome = true :=
  (claim_C5 id [] (List.Perm.refl _)).1

/-- Rejection or acceptance of one bet-loop iteration, characterised. -/
lemma validateBet_eq (balance bet r : Int) :
    validateBet balance bet = some r ↔ 0 < bet ∧ bet ≤ balance ∧ r = bet := by
  unfold validateBet
  split_ifs with h1 h2 <;> simp <;> omega

/-- Counterexample to claim C6 as stated: with balance 50, empty input does
not place the default bet of 100 — the default exceeds the balance, so the
loop rejects it and re-prompts. -/
theorem claim_C6_counterexample : parseBet 50 BetInput.empty = none := by decide

/-- Claim C6 as amended: an iteration of the bet loop accepts a bet iff the
selected amount — 100 for empty input, the truncated numeric value otherwise —
is positive and at most the balance; non-numeric input is always rejected. -/
theorem claim_C6_amended (balance : Int) (i : BetInput) (bet : Int) :
    parseBet balance i = some bet ↔
      (0 < bet ∧ bet ≤ balance ∧
        ((i = BetInput.empty ∧ bet = 100)
          ∨ (∃ m d, i = BetInput.numeric m d
              ∧ bet = dyadicTrunc (pyFloat m d)))) := by
  cases i with
  | empty =>
    rw [parseBet, validateBet_eq]
    constructor
    · rintro ⟨-, h2, h3⟩
      subst h3
      exact ⟨by norm_num, h2, Or.inl ⟨rfl, rfl⟩⟩
    · rintro ⟨h1, h2, h3 | ⟨m, d, hq, -⟩⟩
      · obtain ⟨-, h4⟩ := h3
        subst h4
        exact ⟨by norm_num, h2, rfl⟩
      · exact absurd hq (by simp)
  | nonNumeric =>
    simp [parseBet]
  | numeric m d =>
    rw [parseBet, validateBet_eq]
    constructor
    · rintro ⟨h1, h2, h3⟩
      subst h3
      exact ⟨h1, h2, Or.inr ⟨m, d, rfl, rfl⟩⟩
    · rintro ⟨h1, h2, ⟨hq, -⟩ | ⟨m2, d2, hq, h3⟩⟩
      · exact absurd hq (by simp)
      · injection hq with hm hd
        subst hm
        subst hd
        subst h3
        exact ⟨h1, h2, rfl⟩

/-- Witness for C6's amended theorem: with balance 1000, empty input places
the default bet of 100. -/
theorem claim_C6_amended_witness : parseBet 1000 BetInput.empty = some 100 :=
  (claim_C6_amended 1000 BetInput.empty 100).mpr
    ⟨by decide, by decide, Or.inl ⟨rfl, rfl⟩⟩

/-- Floor-division by a positive natural brackets the exact quotient. -/
lemma natDiv_rat_bounds (a D : Nat) (hD : 0 < D) :
    ((a / D : Nat) : Rat) ≤ (a : Rat) / (D : Rat)
    ∧ (a : Rat) / (D : Rat) < ((a / D : Nat) : Rat) + 1 := by
  have hD2 : (0 : Rat) < (D : Rat) := by exact_mod_cast hD
  constructor
  · rw [le_div_iff₀ hD2]
    exact_mod_cast Nat.div_mul_le_self a D
  · rw [div_lt_iff₀ hD2]
    exact_mod_cast (Nat.div_lt_iff_lt_mul hD).mp (Nat.lt_succ_self (a / D))

/-- `dyadicTrunc` truncates a nonnegative dyadic value toward zero. -/
lemma dyadicTrunc_nonneg_spec (p : Int × Int) (h : 0 ≤ dyadicVal p) :
    0 ≤ dyadicTrunc p ∧ (dyadicTrunc p : Rat) ≤ dyadicVal p
    ∧ dyadicVal p < dyadicTrunc p + 1 := by
  obtain ⟨M, s⟩ := p
  rcases le_or_lt s 0 with hs | hs
  · rcases eq_or_lt_of_le hs with hs0 | hsneg
    · subst hs0
      have hv : dyadicVal (M, 0) = (M : Rat) := by simp [dyadicVal]
      have ht : dyadicTrunc (M, 0) = M := by simp [dyadicTrunc]
      rw [hv] at h
      rw [hv, ht]
      exact ⟨by exact_mod_cast h, le_refl _, by linarith⟩
    · have hv : dyadicVal (M, s) = (M : Rat) * 2 ^ (-s).toNat := by
        simp [dyadicVal, not_le.mpr hsneg]
      have ht : dyadicTrunc (M, s) = M * 2 ^ (-s).toNat := by
        simp [dyadicTrunc, hs]
      have hc : ((M * 2 ^ (-s).toNat : Int) : Rat) = (M : Rat) * 2 ^ (-s).toNat := by
        push_cast
        ring
      rw [hv, ht]
      refine ⟨?_, le_of_eq hc, by rw [← hc]; linarith⟩
      rw [hv, ← hc] at h
      exact_mod_cast h
  · have hsn : (0 : Int) ≤ s := le_of_lt hs
    have hv : dyadicVal (M, s) = (M : Rat) / 2 ^ s.toNat := by
      simp [dyadicVal, hsn]
    have h2k : (0 : Rat) < 2 ^ s.toNat := by positivity
    have hM : 0 ≤ M := by
      by_contra hneg
      push_neg at hneg
      have hlt : dyadicVal (M, s) < 0 := by
        rw [hv]
        exact div_neg_of_neg_of_pos (by exact_mod_cast hneg) h2k
      linarith
    have hex : ∃ a : Nat, M = (a : Int) := ⟨M.toNat, (Int.toNat_of_nonneg hM).symm⟩
    obtain ⟨a, rfl⟩ := hex
    have ht : dyadicTrunc ((a : Int), s) = ((a / 2 ^ s.toNat : Nat) : Int) := by
      simp [dyadicTrunc, not_le.mpr hs]
    obtain ⟨hb1, hb2⟩ := natDiv_rat_bounds a (2 ^ s.toNat) (by positivity)
    push_cast at hb1 hb2
    rw [hv, ht]
    refine ⟨by exact_mod_cast Nat.zero_le _, ?_, ?_⟩
    · simp only [Int.cast_natCast]
      exact hb1
    · simp only [Int.cast_natCast]
      exact hb2

/-- `dyadicTrunc` truncates a negative dyadic value toward zero. -/
lemma dyadicTrunc_neg_spec (p : Int × Int) (h : dyadicVal p < 0) :
    dyadicTrunc p ≤ 0 ∧ dyadicVal p ≤ (dyadicTrunc p : Rat)
    ∧ (dyadicTrunc p : Rat) < dyadicVal p + 1 := by
  obtain ⟨M, s⟩ := p
  rcases le_or_lt s 0 with hs | hs
  · rcases eq_or_lt_of_le hs with hs0 | hsneg
    · subst hs0
      have hv : dyadicVal (M, 0) = (M : Rat) := by simp [dyadicVal]
      have ht : dyadicTrunc (M, 0) = M := by simp [dyadicTrunc]
      rw [hv] at h
      rw [hv, ht]
      exact ⟨by exact_mod_cast le_of_lt h, le_refl _, by linarith⟩
    · have hv : dyadicVal (M, s) = (M : Rat) * 2 ^ (-s).toNat := by
        simp [dyadicVal, not_le.mpr hsneg]
      have ht : dyadicTrunc (M, s) = M * 2 ^ (-s).toNat := by
        simp [dyadicTrunc, hs]
      have hc : ((M * 2 ^ (-s).toNat : Int) : Rat) = (M : Rat) * 2 ^ (-s).toNat := by
        push_cast
        ring
      rw [hv, ht]
      refine ⟨?_, le_of_eq hc.symm, by rw [hc]; linarith⟩
      rw [hv, ← hc] at h
      exact_mod_cast le_of_lt h
  · have hsn : (0 : Int) ≤ s := le_of_lt hs
    have hv : dyadicVal (M, s) = (M : Rat) / 2 ^ s.toNat := by
      simp [dyadicVal, hsn]
    have h2k : (0 : Rat) < 2 ^ s.toNat := by positivity
    have hM : M < 0 := by
      by_contra hpos
      push_neg at hpos
      have hge : 0 ≤ dyadicVal (M, s) := by
        rw [hv]
        exact div_nonneg (by exact_mod_cast hpos) (le_of_lt h2k)
      linarith
    have hex : ∃ a : Nat, M = -(a : Int) := ⟨(-M).toNat, by omega⟩
    obtain ⟨a, rfl⟩ := hex
    have ht : dyadicTrunc (-(a : Int), s) = -((a / 2 ^ s.toNat : Nat) : Int) := by
      simp [dyadicTrunc, not_le.mpr hs, not_le.mpr hM]
    obtain ⟨hb1, hb2⟩ := natDiv_rat_bounds a (2 ^ s.toNat) (by positivity)
    push_cast at hb1 hb2
    rw [hv, ht]
    refine ⟨neg_nonpos.mpr (by exact_mod_cast Nat.zero_le _), ?_, ?_⟩
    · simp only [Int.cast_neg, Int.cast_natCast]
      rw [neg_div]
      exact neg_le_neg hb1
    · simp only [Int.cast_neg, Int.cast_natCast]
      rw [neg_div]
      linarith

/-- A dyadic value strictly between 0 and 1 truncates to 0. -/
lemma dyadicTrunc_eq_zero (p : Int × Int) (h0 : 0 < dyadicVal p)
    (h1 : dyadicVal p < 1) : dyadicTrunc p = 0 := by
  obtain ⟨hnn, hle, -⟩ := dyadicTrunc_nonneg_spec p (le_of_lt h0)
  have h2 : (dyadicTrunc p : Rat) < 1 := lt_of_le_of_lt hle h1
  have h3 : dyadicTrunc p < 1 := by exact_mod_cast h2
  omega

/-- Counterexample to claim C10 as stated: the input `0.99999999999999999`
has exact value strictly between 0 and 1, yet `float(...)` rounds it to
`1.0`, `int(...)` gives 1, and the bet of 1 is accepted - not rejected. -/
theorem claim_C10_counterexample :
    0 < litVal 99999999999999999 17 ∧ litVal 99999999999999999 17 < 1
    ∧ parseBet 1000 (BetInput.numeric 99999999999999999 17) = some 1 :=
  ⟨by norm_num [litVal], by norm_num [litVal], by decide⟩

/-- Claim C10 as amended: numeric input is parsed to the nearest binary64
float and then truncated toward zero before validation, so the placed bet is
always an integer: `dyadicTrunc` truncates the parsed value toward zero in
both signs, `100.9` places a bet of 100, and any input whose parsed float
value is strictly between 0 and 1 truncates to 0 and is rejected. -/
theorem claim_C10_amended :
    (∀ p : Int × Int, 0 ≤ dyadicVal p →
        0 ≤ dyadicTrunc p ∧ (dyadicTrunc p : Rat) ≤ dyadicVal p
          ∧ dyadicVal p < dyadicTrunc p + 1)
    ∧ (∀ p : Int × Int, dyadicVal p < 0 →
        dyadicTrunc p ≤ 0 ∧ dyadicVal p ≤ (dyadicTrunc p : Rat)
          ∧ (dyadicTrunc p : Rat) < dyadicVal p + 1)
    ∧ parseBet 1000 (BetInput.numeric 1009 1) = some 100
    ∧ (∀ (balance m : Int) (d : Nat),
        0 < dyadicVal (pyFloat m d) → dyadicVal (pyFloat m d) < 1 →
        parseBet balance (BetInput.numeric m d) = none) := by
  refine ⟨dyadicTrunc_nonneg_spec, dyadicTrunc_neg_spec, by decide, ?_⟩
  intro balance m d h0 h1
  have hz := dyadicTrunc_eq_zero _ h0 h1
  simp [parseBet, hz, validateBet]

/-- Witness for C10's amended theorem at the input 0.9: its parsed float
value lies strictly between 0 and 1, so the bet is rejected. -/
theorem claim_C10_amended_witness :
    parseBet 1000 (BetInput.numeric 9 1) = none := by
  have h9 : pyFloat 9 1 = (8106479329266893, 53) := by decide
  exact claim_C10_amended.2.2.2 1000 9 1
    (by rw [h9]; norm_num [dyadicVal, show ((53 : Int)).toNat = 53 from rfl])
    (by rw [h9]; norm_num [dyadicVal, show ((53 : Int)).toNat = 53 from rfl])

/-- Claim C4: the dealer loop deals a card exactly while the hand value is
below 17 — a starting value below 17 yields at least one more card, a value
of 17 or more yields none, and the loop exits with value at least 17. -/
theorem claim_C4 (sh : List Card → List Card) (fuel : Nat)
    (deck hand hand' deck' : List Card)
    (h : dealerTurn sh fuel deck hand = some (hand', deck')) :
    17 ≤ Hand.get_value hand'
    ∧ (17 ≤ Hand.get_value hand → hand' = hand)
    ∧ (Hand.get_value hand < 17 → hand.length < hand'.length) := by
  induction fuel generalizing deck hand with
  | zero => simp [dealerTurn] at h
  | succ n ih =>
    rw [dealerTurn] at h
    by_cases h17 : Hand.get_value hand < 17
    · rw [if_pos h17] at h
      cases hdeal : Deck.deal sh deck with
      | none => rw [hdeal] at h; simp at h
      | some pr =>
        obtain ⟨c, deck2⟩ := pr
        rw [hdeal] at h
        obtain ⟨g1, g2, g3⟩ := ih deck2 (hand ++ [c]) h
        refine ⟨g1, fun hge => absurd hge (by omega), fun _ => ?_⟩
        by_cases h17c : Hand.get_value (hand ++ [c]) < 17
        · have := g3 h17c
          simp at this ⊢
          omega
        · have h4 := g2 (by omega)
          rw [h4]
          simp
    · rw [if_neg h17] at h
      have h1 : hand = hand' := congrArg Prod.fst (Option.some.inj h)
      subst h1
      exact ⟨by omega, fun _ => rfl, fun hlt => absurd hlt h17⟩

/-- Witness for C4: a dealer holding King and Queen (value 20) stands pat and
ends the turn at 17 or more. -/
theorem claim_C4_witness :
    17 ≤ Hand.get_value [⟨.hearts, .king⟩, ⟨.hearts, .queen⟩] :=
  (claim_C4 id 1 [] [⟨.hearts, .king⟩, ⟨.hearts, .queen⟩]
    [⟨.hearts, .king⟩, ⟨.hearts, .queen⟩] [] (by decide)).1

/-- The winner-determination chain, characterised: it never yields a player
bust, and pays as the comparison of the two final values dictates. -/
lemma settle_spec (pv dv : Nat) (bet balance : Int) :
    (settle pv dv bet balance).1 ≠ Outcome.playerBust
    ∧ ((21 < dv ∨ dv < pv) → (settle pv dv bet balance).2 = balance + bet)
    ∧ (dv ≤ 21 → pv < dv → (settle pv dv bet balance).2 = balance - bet)
    ∧ (dv ≤ 21 → pv = dv → (settle pv dv bet balance).2 = balance) := by
  unfold settle
  split_ifs with h1 h2 h3
  · exact ⟨by simp, fun _ => rfl, fun hle _ => by omega, fun hle _ => by omega⟩
  · exact ⟨by simp, fun _ => rfl, fun _ hlt => by omega, fun _ heq => by omega⟩
  · refine ⟨by simp, ?_, fun _ _ => rfl, fun _ heq => by omega⟩
    rintro (hy | hy) <;> omega
  · refine ⟨by simp, ?_, fun _ hlt => by omega, fun _ _ => rfl⟩
    rintro (hy | hy) <;> omega

/-- Settlement of a round without naturals, on `roundCore`. -/
lemma roundCore_settlement (sh : List Card → List Card) (choices : List Bool)
    (bet balance : Int) (fuel : Nat) (phand dhand deck4 : List Card)
    (r : RoundResult)
    (h : roundCore sh choices bet balance fuel phand dhand deck4 = some r)
    (hp : r.playerBJ = false) (hd : r.dealerBJ = false) :
    (r.outcome = Outcome.playerBust → r.balance = balance - bet)
    ∧ (r.outcome ≠ Outcome.playerBust →
        ((21 < Hand.get_value r.dealerHand
            ∨ Hand.get_value r.dealerHand < Hand.get_value r.playerHand) →
          r.balance = balance + bet)
        ∧ (Hand.get_value r.dealerHand ≤ 21 →
            Hand.get_value r.playerHand < Hand.get_value r.dealerHand →
          r.balance = balance - bet)
        ∧ (Hand.get_value r.dealerHand ≤ 21 →
            Hand.get_value r.playerHand = Hand.get_value r.dealerHand →
          r.balance = balance)) := by
  simp only [roundCore] at h
  split_ifs at h with c1 c2 c3
  · obtain rfl := Option.some.inj h
    simp_all
  · obtain rfl := Option.some.inj h
    simp_all
  · obtain rfl := Option.some.inj h
    simp_all
  · simp only [Option.bind_eq_some] at h
    obtain ⟨tr, htr, h⟩ := h
    by_cases hb : tr.2.2 = true
    · rw [if_pos hb] at h
      obtain rfl := Option.some.inj h
      exact ⟨fun _ => rfl, fun hne => absurd rfl hne⟩
    · rw [if_neg hb] at h
      simp only [Option.bind_eq_some] at h
      obtain ⟨dr, hdr, h⟩ := h
      obtain rfl := Option.some.inj h
      exact ⟨fun hx => absurd hx (settle_spec _ _ _ _).1,
        fun _ => (settle_spec _ _ _ _).2⟩

/-- Claim C2: in a settled round with no natural blackjack on either side, a
player bust costs exactly the bet; otherwise the settlement compares the two
final hand values — dealer bust or a higher player value pays the bet, a lower
player value costs the bet, and a tie leaves the balance unchanged. -/
theorem claim_C2 (sh : List Card → List Card) (deck : List Card)
    (choices : List Bool) (bet balance : Int) (fuel : Nat) (r : RoundResult)
    (h : playRound sh deck choices bet balance fuel = some r)
    (hp : r.playerBJ = false) (hd : r.dealerBJ = false) :
    (r.outcome = Outcome.playerBust → r.balance = balance - bet)
    ∧ (r.outcome ≠ Outcome.playerBust →
        ((21 < Hand.get_value r.dealerHand
            ∨ Hand.get_value r.dealerHand < Hand.get_value r.playerHand) →
          r.balance = balance + bet)
        ∧ (Hand.get_value r.dealerHand ≤ 21 →
            Hand.get_value r.playerHand < Hand.get_value r.dealerHand →
          r.balance = balance - bet)
        ∧ (Hand.get_value r.dealerHand ≤ 21 →
            Hand.get_value r.playerHand = Hand.get_value r.dealerHand →
          r.balance = balance)) := by
  simp only [playRound, Option.bind_eq_some] at h
  obtain ⟨pr1, -, pr2, -, pr3, -, pr4, -, h⟩ := h
  exact roundCore_settlement _ _ _ _ _ _ _ _ _ h hp hd

/-- Witness for C2: player 10+9 = 19 beats dealer 9+8 = 17 and wins the bet. -/
theorem claim_C2_witness :
    (RoundResult.mk [⟨.hearts, .r10⟩, ⟨.spades, .r9⟩] [⟨.hearts, .r9⟩, ⟨.hearts, .r8⟩]
      false false Outcome.playerWin 1100).balance = 1000 + 100 := by
  have h := claim_C2 id
    [⟨.hearts, .r8⟩, ⟨.spades, .r9⟩, ⟨.hearts, .r9⟩, ⟨.hearts, .r10⟩]
    [false] 100 1000 1
    (RoundResult.mk [⟨.hearts, .r10⟩, ⟨.spades, .r9⟩] [⟨.hearts, .r9⟩, ⟨.hearts, .r8⟩]
      false false Outcome.playerWin 1100)
    (by decide) rfl rfl
  exact (h.2 (by decide)).1 (Or.inr (by decide))

/-- A lone player natural pays `blackjackWinnings`, on `roundCore`. -/
lemma roundCore_blackjack (sh : List Card → List Card) (choices : List Bool)
    (bet balance : Int) (fuel : Nat) (phand dhand deck4 : List Card)
    (r : RoundResult)
    (h : roundCore sh choices bet balance fuel phand dhand deck4 = some r)
    (hp : r.playerBJ = true) (hd : r.dealerBJ = false) :
    r.balance = balance + blackjackWinnings bet := by
  simp only [roundCore] at h
  split_ifs at h with c1 c2 c3
  · obtain rfl := Option.some.inj h
    simp_all
  · obtain rfl := Option.some.inj h
    rfl
  · obtain rfl := Option.some.inj h
    simp_all
  · simp only [Option.bind_eq_some] at h
    obtain ⟨tr, htr, h⟩ := h
    by_cases hb : tr.2.2 = true
    · rw [if_pos hb] at h
      obtain rfl := Option.some.inj h
      simp_all
    · rw [if_neg hb] at h
      simp only [Option.bind_eq_some] at h
      obtain ⟨dr, hdr, h⟩ := h
      obtain rfl := Option.some.inj h
      simp_all

/-- Claim C3: when the player alone holds a natural blackjack on the initial
deal, the balance grows by `round(bet * 1.5)` — the nearest integer to
`3 * bet / 2`, with exact halves (odd bets) resolved to the even neighbour. -/
theorem claim_C3 :
    (∀ (sh : List Card → List Card) (deck : List Card) (choices : List Bool)
        (bet balance : Int) (fuel : Nat) (r : RoundResult),
        playRound sh deck choices bet balance fuel = some r →
        r.playerBJ = true → r.dealerBJ = false →
        r.balance = balance + blackjackWinnings bet)
    ∧ (∀ b : Int, |2 * blackjackWinnings b - 3 * b| ≤ 1
        ∧ (2 * blackjackWinnings b ≠ 3 * b → blackjackWinnings b % 2 = 0)) := by
  constructor
  · intro sh deck choices bet balance fuel r h hp hd
    simp only [playRound, Option.bind_eq_some] at h
    obtain ⟨pr1, -, pr2, -, pr3, -, pr4, -, h⟩ := h
    exact roundCore_blackjack _ _ _ _ _ _ _ _ _ h hp hd
  · intro b
    unfold blackjackWinnings pyRoundHalf
    constructor
    · rw [abs_le]
      constructor <;> split_ifs <;> omega
    · split_ifs <;> intro hne <;> omega

/-- Witness for C3: Ace+King against dealer 17 with bet 101 pays
`round(151.5) = 152`. -/
theorem claim_C3_witness :
    (RoundResult.mk [⟨.hearts, .ace⟩, ⟨.hearts, .king⟩] [⟨.hearts, .r9⟩, ⟨.hearts, .r8⟩]
      true false Outcome.playerBlackjack 1152).balance = 1000 + blackjackWinnings 101 :=
  claim_C3.1 id [⟨.hearts, .r8⟩, ⟨.hearts, .king⟩, ⟨.hearts, .r9⟩, ⟨.hearts, .ace⟩]
    [] 101 1000 0
    (RoundResult.mk [⟨.hearts, .ace⟩, ⟨.hearts, .king⟩] [⟨.hearts, .r9⟩, ⟨.hearts, .r8⟩]
      true false Outcome.playerBlackjack 1152)
    (by decide) rfl rfl

/-- The settlement moves the balance by at most the bet. -/
lemma settle_balance (pv dv : Nat) (bet balance : Int) :
    (settle pv dv bet balance).2 = balance
    ∨ (settle pv dv bet balance).2 = balance + bet
    ∨ (settle pv dv bet balance).2 = balance - bet := by
  unfold settle
  split_ifs
  · exact Or.inr (Or.inl rfl)
  · exact Or.inr (Or.inl rfl)
  · exact Or.inr (Or.inr rfl)
  · exact Or.inl rfl

/-- Every branch of a round changes the balance by the bet, the blackjack
payout, or nothing. -/
lemma roundCore_balance (sh : List Card → List Card) (choices : List Bool)
    (bet balance : Int) (fuel : Nat) (phand dhand deck4 : List Card)
    (r : RoundResult)
    (h : roundCore sh choices bet balance fuel phand dhand deck4 = some r) :
    r.balance = balance ∨ r.balance = balance + bet ∨ r.balance = balance - bet
    ∨ r.balance = balance + blackjackWinnings bet := by
  simp only [roundCore] at h
  split_ifs at h with c1 c2 c3
  · obtain rfl := Option.some.inj h
    exact Or.inl rfl
  · obtain rfl := Option.some.inj h
    exact Or.inr (Or.inr (Or.inr rfl))
  · obtain rfl := Option.some.inj h
    exact Or.inr (Or.inr (Or.inl rfl))
  · simp only [Option.bind_eq_some] at h
    obtain ⟨tr, -, h⟩ := h
    by_cases hb : tr.2.2 = true
    · rw [if_pos hb] at h
      obtain rfl := Option.some.inj h
      exact Or.inr (Or.inr (Or.inl rfl))
    · rw [if_neg hb] at h
      simp only [Option.bind_eq_some] at h
      obtain ⟨dr, -, h⟩ := h
      obtain rfl := Option.some.inj h
      rcases settle_balance (Hand.get_value tr.1) (Hand.get_value dr.1) bet balance
        with hs | hs | hs
      · exact Or.inl hs
      · exact Or.inr (Or.inl hs)
      · exact Or.inr (Or.inr (Or.inl hs))

/-- The blackjack payout of a positive bet is nonnegative. -/
lemma blackjackWinnings_nonneg (bet : Int) (h : 0 < bet) :
    0 ≤ blackjackWinnings bet := by
  unfold blackjackWinnings pyRoundHalf
  split_ifs <;> omega

/-- An accepted bet is positive and at most the balance. -/
lemma parseBet_bounds (balance : Int) (i : BetInput) (bet : Int)
    (h : parseBet balance i = some bet) : 0 < bet ∧ bet ≤ balance := by
  cases i with
  | empty =>
    rw [parseBet, validateBet_eq] at h
    obtain ⟨-, h2, h3⟩ := h
    subst h3
    exact ⟨by norm_num, h2⟩
  | nonNumeric => simp [parseBet] at h
  | numeric m d =>
    rw [parseBet, validateBet_eq] at h
    obtain ⟨h1, h2, h3⟩ := h
    subst h3
    exact ⟨h1, h2⟩

/-- Claim C9: a round that starts with a non-negative balance and a bet the
bet loop accepted ends with a non-negative balance — the accepted bet is at
most the balance and the largest possible loss is the bet. -/
theorem claim_C9 (sh : List Card → List Card) (deck : List Card)
    (choices : List Bool) (i : BetInput) (bet balance : Int) (fuel : Nat)
    (r : RoundResult) (hbal : 0 ≤ balance)
    (hbet : parseBet balance i = some bet)
    (h : playRound sh deck choices bet balance fuel = some r) :
    0 ≤ r.balance := by
  obtain ⟨h1, h2⟩ := parseBet_bounds balance i bet hbet
  simp only [playRound, Option.bind_eq_some] at h
  obtain ⟨pr1, -, pr2, -, pr3, -, pr4, -, h⟩ := h
  have h3 := blackjackWinnings_nonneg bet h1
  rcases roundCore_balance _ _ _ _ _ _ _ _ _ h with h4 | h4 | h4 | h4 <;> omega

/-- Witness for C9: a full push round with bet 100 against balance 1000 ends
at a non-negative balance. -/
theorem claim_C9_witness :
    (0 : Int) ≤ (RoundResult.mk [⟨.hearts, .r10⟩, ⟨.hearts, .r7⟩]
      [⟨.hearts, .r9⟩, ⟨.hearts, .r8⟩] false false Outcome.push 1000).balance :=
  claim_C9 id [⟨.hearts, .r8⟩, ⟨.hearts, .r7⟩, ⟨.hearts, .r9⟩, ⟨.hearts, .r10⟩]
    [false] BetInput.empty 100 1000 1
    (RoundResult.mk [⟨.hearts, .r10⟩, ⟨.hearts, .r7⟩]
      [⟨.hearts, .r9⟩, ⟨.hearts, .r8⟩] false false Outcome.push 1000)
    (by decide) (by decide) (by decide)
